import Mathlib

/-!
# Verification of the py2rocket extension's command/output adapter

A shallow embedding, over `List Char`, of the string-manipulation core of the
py2rocket VS Code extension: group-path normalization (`normalizeGroupPath`,
`splitGroupPath`, `isSafeGroupParts`, `buildFullGroupName`,
`resolveLocalGroupDir`), JSON extraction from noisy command output
(`parseJsonFromCommandOutput`), workflow-id extraction (`extractWorkflowId`),
and the build-and-push orchestration (`buildAndPushCommand`).

JavaScript strings are modelled as `List Char`; the JavaScript standard
library functions the code relies on (`String.prototype.trim`, `split`,
`join`, `indexOf`, `lastIndexOf`, `slice`, `JSON.parse`, Node's `path.join`
and `path.basename`) are modelled explicitly below next to the definitions
that use them.
-/

namespace Py2Rocket

/-- Whitespace stripped by JavaScript `String.prototype.trim` (the common
ASCII subset: space, tab, LF, CR, VT, FF). -/
def isJsWs (c : Char) : Bool :=
  c = ' ' || c = '\t' || c = '\n' || c = '\r' || c = '\x0b' || c = '\x0c'

/-- Model of JavaScript `String.prototype.trim`. -/
def trimL (l : List Char) : List Char :=
  ((l.dropWhile isJsWs).reverse.dropWhile isJsWs).reverse

/-- Model of JavaScript `str.replace(/\\/g, '/')`. -/
def replaceBackslashes (l : List Char) : List Char :=
  l.map fun c => if c = '\\' then '/' else c

/-- Model of JavaScript `str.split('/')` (note `"".split('/') = [""]`). -/
def splitSlash : List Char → List (List Char)
  | [] => [[]]
  | c :: rest =>
    if c = '/' then [] :: splitSlash rest
    else
      match splitSlash rest with
      | [] => [[c]]
      | s :: ss => (c :: s) :: ss

/-- Model of JavaScript `parts.join('/')`. -/
def joinSlash : List (List Char) → List Char
  | [] => []
  | [s] => s
  | s :: rest => s ++ '/' :: joinSlash rest

/-- Result record of `normalizeGroupPath`. -/
structure GroupPathInfo where
  normalized : List Char
  leadingSlash : Bool
  deriving DecidableEq, Repr

/-- `normalizeGroupPath` from the source: trim, record leading slash, replace
backslashes with '/', split on '/', drop empty segments, rejoin. -/
def normalizeGroupPath (value : List Char) : GroupPathInfo :=
  let trimmed := trimL value
  let leadingSlash := trimmed.head? = some '/'
  let normalized :=
    joinSlash ((splitSlash (replaceBackslashes trimmed)).filter fun s => !s.isEmpty)
  { normalized := normalized, leadingSlash := leadingSlash }

/-- `splitGroupPath` from the source. -/
def splitGroupPath (value : List Char) : List (List Char) :=
  let n := (normalizeGroupPath value).normalized
  if n.isEmpty then [] else splitSlash n

/-- `isSafeGroupParts` from the source: every segment truthy (non-empty) and
not `.` or `..`. -/
def isSafeGroupParts (parts : List (List Char)) : Bool :=
  parts.all fun part => !part.isEmpty && !(part == ['.']) && !(part == ['.', '.'])

/-- Model of JavaScript `String.prototype.startsWith` (first argument is the
string, second the candidate leading substring). -/
def startsWithL : List Char → List Char → Bool
  | _, [] => true
  | [], _ :: _ => false
  | a :: as, b :: bs => a == b && startsWithL as bs

/-- `buildFullGroupName` from the source. -/
def buildFullGroupName (baseGroupName input : List Char) : List Char :=
  let baseInfo := normalizeGroupPath baseGroupName
  let inputInfo := normalizeGroupPath input
  if inputInfo.normalized.isEmpty then
    (if baseInfo.leadingSlash then '/' :: baseInfo.normalized else baseInfo.normalized)
  else
    let full :=
      if !baseInfo.normalized.isEmpty && !startsWithL inputInfo.normalized baseInfo.normalized then
        joinSlash ([baseInfo.normalized, inputInfo.normalized].filter fun s => !s.isEmpty)
      else inputInfo.normalized
    let leadingSlash := baseInfo.leadingSlash || inputInfo.leadingSlash
    if leadingSlash then '/' :: full else full

/-- Model of Node's `path.join(base, ...parts)` as used by
`resolveLocalGroupDir`: the base joined to each further segment with a single
'/' separator.  (Node additionally resolves `.`/`..` segments and collapses
repeated separators; the segments produced by `splitGroupPath` are non-empty
and slash-free, where both behaviours agree.) -/
def pathJoin (base : List Char) (parts : List (List Char)) : List Char :=
  parts.foldl (fun acc p => acc ++ '/' :: p) base

/-- `resolveLocalGroupDir` from the source. -/
def resolveLocalGroupDir (workspaceFolder baseGroupName fullGroupName : List Char) :
    List Char :=
  let baseParts := splitGroupPath baseGroupName
  let fullParts := splitGroupPath fullGroupName
  let relParts :=
    if baseParts.length > 0 &&
        joinSlash (fullParts.take baseParts.length) == joinSlash baseParts then
      fullParts.drop baseParts.length
    else fullParts
  if relParts.isEmpty then workspaceFolder else pathJoin workspaceFolder relParts

/-! ## JSON values and a model of `JSON.parse`

`JSON.parse` is a JavaScript builtin; it is modelled here by a recursive
descent parser over the JSON grammar.  Numbers are kept as their lexemes
(the claims under verification never compare distinct lexemes of one
numeric value, so the float decoding step is not modelled). -/

/-- A JSON value. -/
inductive Json where
  | null : Json
  | bool (b : Bool) : Json
  | num (lexeme : List Char) : Json
  | str (s : List Char) : Json
  | arr (elems : List Json) : Json
  | obj (fields : List (List Char × Json)) : Json

/-- Insignificant whitespace of the JSON grammar. -/
def isJsonWs (c : Char) : Bool :=
  c = ' ' || c = '\t' || c = '\n' || c = '\r'

/-- Skip insignificant JSON whitespace. -/
def skipWs (l : List Char) : List Char := l.dropWhile isJsonWs

/-- Decode a single-character JSON string escape. -/
def escChar (c : Char) : Option Char :=
  if c = '"' then some '"'
  else if c = '\\' then some '\\'
  else if c = '/' then some '/'
  else if c = 'b' then some '\x08'
  else if c = 'f' then some '\x0c'
  else if c = 'n' then some '\n'
  else if c = 'r' then some '\r'
  else if c = 't' then some '\t'
  else none

/-- Numeric value of one hexadecimal digit, `none` for anything else
(digits are code points 48–57, lower-case letters 97–102, upper 65–70). -/
def hexVal (c : Char) : Option Nat :=
  let n := c.toNat
  if 48 ≤ n ∧ n ≤ 57 then some (n - 48)
  else if 97 ≤ n ∧ n ≤ 102 then some (n - 87)
  else if 65 ≤ n ∧ n ≤ 70 then some (n - 55)
  else none

/-- Parse the body of a JSON string literal (the opening quote already
consumed); returns the decoded characters and the remaining input. -/
def parseStringBody : List Char → Option (List Char × List Char)
  | [] => none
  | '"' :: rest => some ([], rest)
  | '\\' :: 'u' :: h1 :: h2 :: h3 :: h4 :: rest =>
    match hexVal h1, hexVal h2, hexVal h3, hexVal h4 with
    | some a, some b, some c, some d =>
      (parseStringBody rest).map fun (cs, r) =>
        (Char.ofNat (((a * 16 + b) * 16 + c) * 16 + d) :: cs, r)
    | _, _, _, _ => none
  | '\\' :: e :: rest =>
    match escChar e with
    | some c => (parseStringBody rest).map fun (cs, r) => (c :: cs, r)
    | none => none
  | c :: rest =>
    if c.toNat < 0x20 then none
    else (parseStringBody rest).map fun (cs, r) => (c :: cs, r)

/-- One or more decimal digits, returned with the rest of the input. -/
def takeDigits (l : List Char) : List Char × List Char :=
  (l.takeWhile fun c => '0' ≤ c && c ≤ '9', l.dropWhile fun c => '0' ≤ c && c ≤ '9')

/-- Parse a JSON number lexeme at the head of the input. -/
def parseNumber (l : List Char) : Option (List Char × List Char) :=
  let (neg, l1) := match l with
    | '-' :: r => (['-'], r)
    | _ => (([] : List Char), l)
  match l1 with
  | '0' :: r =>
    let (frac, r1) := parseFracExp r
    some (neg ++ '0' :: frac, r1)
  | c :: _ =>
    if '1' ≤ c && c ≤ '9' then
      let (ds, r) := takeDigits l1
      let (frac, r1) := parseFracExp r
      some (neg ++ ds ++ frac, r1)
    else none
  | [] => none
where
  /-- Optional fraction and exponent parts. -/
  parseFracExp (l : List Char) : List Char × List Char :=
    let (frac, r) := match l with
      | '.' :: r0 =>
        match takeDigits r0 with
        | ([], _) => (([] : List Char), l)
        | (ds, r1) => ('.' :: ds, r1)
      | _ => ([], l)
    match r with
    | e :: r0 =>
      if e = 'e' || e = 'E' then
        let (sign, r1) := match r0 with
          | '+' :: r2 => (['+'], r2)
          | '-' :: r2 => (['-'], r2)
          | _ => (([] : List Char), r0)
        match takeDigits r1 with
        | ([], _) => (frac, r)
        | (ds, r2) => (frac ++ e :: sign ++ ds, r2)
      else (frac, r)
    | [] => (frac, r)

mutual

/-- Parse a JSON value (fuel-indexed recursion). -/
def parseValue : Nat → List Char → Option (Json × List Char)
  | 0, _ => none
  | fuel + 1, s =>
    match skipWs s with
    | [] => none
    | 'n' :: rest =>
      if rest.take 3 = ['u', 'l', 'l'] then some (.null, rest.drop 3) else none
    | 't' :: rest =>
      if rest.take 3 = ['r', 'u', 'e'] then some (.bool true, rest.drop 3) else none
    | 'f' :: rest =>
      if rest.take 4 = ['a', 'l', 's', 'e'] then some (.bool false, rest.drop 4) else none
    | '"' :: rest => (parseStringBody rest).map fun (cs, r) => (.str cs, r)
    | '[' :: rest =>
      (match skipWs rest with
       | ']' :: r => some (.arr [], r)
       | s1 => parseElems fuel s1 [])
    | '\x7b' :: rest =>
      (match skipWs rest with
       | '\x7d' :: r => some (.obj [], r)
       | s1 => parseMembers fuel s1 [])
    | c :: rest =>
      if c = '-' || ('0' ≤ c && c ≤ '9') then
        (parseNumber (c :: rest)).map fun (lx, r) => (.num lx, r)
      else none

/-- Parse the elements of a JSON array after the opening bracket. -/
def parseElems : Nat → List Char → List Json → Option (Json × List Char)
  | 0, _, _ => none
  | fuel + 1, s, acc =>
    match parseValue fuel s with
    | none => none
    | some (v, r) =>
      match skipWs r with
      | ',' :: r2 => parseElems fuel r2 (acc ++ [v])
      | ']' :: r2 => some (.arr (acc ++ [v]), r2)
      | _ => none

/-- Parse the members of a JSON object after the opening brace. -/
def parseMembers : Nat → List Char → List (List Char × Json) →
    Option (Json × List Char)
  | 0, _, _ => none
  | fuel + 1, s, acc =>
    match skipWs s with
    | '"' :: rest =>
      match parseStringBody rest with
      | none => none
      | some (key, r) =>
        match skipWs r with
        | ':' :: r2 =>
          match parseValue fuel r2 with
          | none => none
          | some (v, r3) =>
            match skipWs r3 with
            | ',' :: r4 => parseMembers fuel r4 (acc ++ [(key, v)])
            | '\x7d' :: r4 => some (.obj (acc ++ [(key, v)]), r4)
            | _ => none
        | _ => none
    | _ => none

end

/-- Model of `JSON.parse`: parse one value, require only whitespace after. -/
def jsonParse (s : List Char) : Option Json :=
  match parseValue (4 * s.length + 8) s with
  | some (v, r) => if skipWs r = [] then some v else none
  | none => none

/-! ## `parseJsonFromCommandOutput` -/

/-- Model of JavaScript `str.indexOf(c)` (`none` models `-1`). -/
def firstIdx (l : List Char) (c : Char) : Option Nat :=
  match l with
  | [] => none
  | a :: rest => if a = c then some 0 else (firstIdx rest c).map (· + 1)

/-- Model of JavaScript `str.lastIndexOf(c)` (`none` models `-1`). -/
def lastIdx (l : List Char) (c : Char) : Option Nat :=
  (firstIdx l.reverse c).map fun i => l.length - 1 - i

/-- Model of JavaScript `str.slice(a, b)` for `0 ≤ a ≤ b`. -/
def sliceJs (l : List Char) (a b : Nat) : List Char :=
  (l.drop a).take (b - a)

/-- The three failure modes of `parseJsonFromCommandOutput`: the dedicated
empty-output error, a `SyntaxError` escaping from `JSON.parse`, and the
dedicated no-JSON-found error. -/
inductive PErr where
  | emptyOutput : PErr
  | syntaxErr : PErr
  | noJsonFound : PErr
  deriving DecidableEq, Repr

/-- `JSON.parse` as called by the extension: the value on success, a thrown
`SyntaxError` on failure. -/
def jsonParseExc (s : List Char) : Except PErr Json :=
  match jsonParse s with
  | some v => .ok v
  | none => .error .syntaxErr

/-- The `[`...`]` fallback scan of `parseJsonFromCommandOutput`. -/
def arrayAttempt (trimmed : List Char) : Except PErr Json :=
  match firstIdx trimmed '[', lastIdx trimmed ']' with
  | some s, some e =>
    if s < e then jsonParseExc (sliceJs trimmed s (e + 1))
    else .error .noJsonFound
  | _, _ => .error .noJsonFound

/-- `parseJsonFromCommandOutput` from the source: trim; reject empty output;
if the trimmed text looks like a whole JSON object/array, parse it whole;
else try the first-`{`-to-last-`}` substring, then the first-`[`-to-last-`]`
substring; otherwise report that no JSON was found. -/
def parseJsonFromCommandOutput (output : List Char) : Except PErr Json :=
  let trimmed := trimL output
  if trimmed.isEmpty then .error .emptyOutput
  else if (trimmed.head? == some '\x7b' && trimmed.getLast? == some '\x7d') ||
      (trimmed.head? == some '[' && trimmed.getLast? == some ']') then
    jsonParseExc trimmed
  else
    match firstIdx trimmed '\x7b', lastIdx trimmed '\x7d' with
    | some s, some e =>
      if s < e then jsonParseExc (sliceJs trimmed s (e + 1))
      else arrayAttempt trimmed
    | _, _ => arrayAttempt trimmed

/-! ## `extractWorkflowId`

A model of the regular-expression search
`fileContent.match(/workflow_id\s*=\s*["']([a-f0-9-]+)["']/i)`. -/

/-- ASCII lower-casing, as applied by the regex `i` flag. -/
def lowAscii (c : Char) : Char :=
  if 'A' ≤ c && c ≤ 'Z' then Char.ofNat (c.toNat + 32) else c

/-- The character class `[a-f0-9-]` under the case-insensitive flag. -/
def isIdClassChar (c : Char) : Bool :=
  ('0' ≤ c && c ≤ '9') || ('a' ≤ c && c ≤ 'f') || ('A' ≤ c && c ≤ 'F') || c = '-'

/-- The regex class `\s` (common ASCII subset). -/
def isRegexWs (c : Char) : Bool := isJsWs c

/-- Match a literal case-insensitively at the head of the input, returning
the rest. -/
def dropLitCI : List Char → List Char → Option (List Char)
  | [], s => some s
  | _ :: _, [] => none
  | p :: ps, c :: cs => if lowAscii c = lowAscii p then dropLitCI ps cs else none

/-- Try to match `workflow_id\s*=\s*["']([a-f0-9-]+)["']` at the head of the
input, returning the captured group. -/
def matchIdAt (s : List Char) : Option (List Char) :=
  match dropLitCI "workflow_id".toList s with
  | none => none
  | some r0 =>
    match (r0.dropWhile isRegexWs) with
    | '=' :: r1 =>
      match r1.dropWhile isRegexWs with
      | q :: r2 =>
        if q = '"' || q = '\'' then
          match r2.dropWhile isIdClassChar with
          | q2 :: _ =>
            if (q2 = '"' || q2 = '\'') && !(r2.takeWhile isIdClassChar).isEmpty then
              some (r2.takeWhile isIdClassChar)
            else none
          | [] => none
        else none
      | [] => none
    | _ => none

/-- The regex engine's left-to-right scan: try a match at every position. -/
def searchId : List Char → Option (List Char)
  | [] => none
  | c :: rest =>
    match matchIdAt (c :: rest) with
    | some r => some r
    | none => searchId rest

/-- `extractWorkflowId` from the source: first match's captured group, else
`none`. -/
def extractWorkflowId (fileContent : List Char) : Option (List Char) :=
  searchId fileContent

/-! ## `executePy2RocketCommand` and `buildAndPushCommand`

The subprocess boundary is modelled by an environment: whether a workspace
folder is open, the interpreter string `getPythonCommand()` returns, and the
exit status `exec` reports for each command line.  Each executor call
returns the promise's outcome together with the list of command lines
actually spawned. -/

/-- The ambient state a run of the orchestrator observes. -/
structure ExecEnv where
  /-- Whether a workspace folder is open. -/
  hasWorkspace : Bool
  /-- The interpreter string returned by `getPythonCommand()`. -/
  pythonCmd : List Char
  /-- Whether `exec` of a given command line completes without error. -/
  exitOk : List Char → Bool

/-- `executePy2RocketCommand` from the source: reject with no subprocess when
no workspace is open; otherwise spawn the command and resolve/reject on its
exit status.  The second component records the spawned command lines. -/
def executePy2RocketCommand (env : ExecEnv) (command : List Char) :
    Except Unit Unit × List (List Char) :=
  if !env.hasWorkspace then (.error (), [])
  else if env.exitOk command then (.ok (), [command]) else (.error (), [command])

/-- Model of Node's `path.basename(p)`: the part after the last '/'.  (The
win32 flavour also splits on `\\` and both strip trailing separators; active
editor files have neither.) -/
def basenameL (p : List Char) : List Char :=
  (p.reverse.takeWhile fun c => c ≠ '/').reverse

/-- Model of Node's `path.basename(p, ext)`: the basename with a trailing
`ext` removed when the name ends with it and is not equal to it. -/
def basenameExt (p ext : List Char) : List Char :=
  let b := basenameL p
  if ext.isSuffixOf b ∧ b ≠ ext then b.take (b.length - ext.length)
  else b

/-- The build command line `${py} -m py2rocket build "${fileName}"`. -/
def mkBuildCmd (py fileName : List Char) : List Char :=
  py ++ (" -m py2rocket build \"".toList ++ (fileName ++ "\"".toList))

/-- The push command line `${py} -m py2rocket push "${jsonFileName}"`. -/
def mkPushCmd (py jsonFileName : List Char) : List Char :=
  py ++ (" -m py2rocket push \"".toList ++ (jsonFileName ++ "\"".toList))

/-- `buildAndPushCommand` from the source, as the list of command lines it
spawns: nothing without an active Python file; otherwise the build command,
and the push command only when the awaited build resolved (the `catch`
swallows a rejection after skipping the rest of the `try` block). -/
def buildAndPushCommand (env : ExecEnv) (activeFilePath : Option (List Char)) :
    List (List Char) :=
  match activeFilePath with
  | none => []
  | some filePath =>
    let fileName := basenameL filePath
    let fileNameWithoutExt := basenameExt filePath ".py".toList
    let jsonFileName := fileNameWithoutExt ++ ".json".toList
    let (r1, t1) := executePy2RocketCommand env (mkBuildCmd env.pythonCmd fileName)
    match r1 with
    | .error _ => t1
    | .ok _ =>
      let (_, t2) := executePy2RocketCommand env (mkPushCmd env.pythonCmd jsonFileName)
      t1 ++ t2

/-- No two consecutive '/' characters occur in the list. -/
def noDoubleSlash : List Char → Bool
  | a :: b :: rest => !(a == '/' && b == '/') && noDoubleSlash (b :: rest)
  | _ => true

/-! ## Helper lemmas -/

theorem joinSlash_cons_cons (s t : List Char) (rest : List (List Char)) :
    joinSlash (s :: t :: rest) = s ++ '/' :: joinSlash (t :: rest) := rfl

theorem splitSlash_ne_nil (l : List Char) : splitSlash l ≠ [] := by
  cases l with
  | nil => simp [splitSlash]
  | cons c rest =>
    unfold splitSlash
    split
    · simp
    · cases h : splitSlash rest <;> simp

theorem splitSlash_no_slash (l : List Char) :
    ∀ p ∈ splitSlash l, ∀ c ∈ p, c ≠ '/' := by
  induction l with
  | nil => intro p hp; simp [splitSlash] at hp; simp [hp]
  | cons a rest ih =>
    intro p hp c hc
    unfold splitSlash at hp
    by_cases ha : a = '/'
    · simp [ha] at hp
      rcases hp with hp | hp
      · simp [hp] at hc
      · exact ih p hp c hc
    · rw [if_neg ha] at hp
      cases hsp : splitSlash rest with
      | nil => exact absurd hsp (splitSlash_ne_nil rest)
      | cons s ss =>
        rw [hsp] at hp
        simp at hp
        rcases hp with hp | hp
        · subst hp
          rcases List.mem_cons.mp hc with h | h
          · subst h; exact ha
          · exact ih s (hsp ▸ List.mem_cons_self s ss) c h
        · exact ih p (hsp ▸ List.mem_cons_of_mem s hp) c hc

theorem splitSlash_chars (l : List Char) :
    ∀ p ∈ splitSlash l, ∀ c ∈ p, c ∈ l := by
  induction l with
  | nil => intro p hp; simp [splitSlash] at hp; simp [hp]
  | cons a rest ih =>
    intro p hp c hc
    unfold splitSlash at hp
    by_cases ha : a = '/'
    · simp [ha] at hp
      rcases hp with hp | hp
      · simp [hp] at hc
      · exact List.mem_cons_of_mem a (ih p hp c hc)
    · rw [if_neg ha] at hp
      cases hsp : splitSlash rest with
      | nil => exact absurd hsp (splitSlash_ne_nil rest)
      | cons s ss =>
        rw [hsp] at hp
        simp at hp
        rcases hp with hp | hp
        · subst hp
          rcases List.mem_cons.mp hc with h | h
          · simp [h]
          · exact List.mem_cons_of_mem a (ih s (hsp ▸ List.mem_cons_self s ss) c h)
        · exact List.mem_cons_of_mem a (ih p (hsp ▸ List.mem_cons_of_mem s hp) c hc)

theorem replaceBackslashes_no_bs (l : List Char) :
    ∀ c ∈ replaceBackslashes l, c ≠ '\\' := by
  intro c hc
  simp [replaceBackslashes] at hc
  obtain ⟨a, _, ha⟩ := hc
  by_cases h : a = '\\'
  · simp [h] at ha; simp [← ha]
  · simp [h] at ha; simp [← ha]; exact h

/-- The segments a `normalizeGroupPath` result is joined from. -/
theorem normalizeGroupPath_segments (value : List Char) :
    ∃ parts : List (List Char),
      (normalizeGroupPath value).normalized = joinSlash parts ∧
      (∀ p ∈ parts, p ≠ []) ∧ (∀ p ∈ parts, ∀ c ∈ p, c ≠ '/') ∧
      (∀ p ∈ parts, ∀ c ∈ p, c ≠ '\\') := by
  refine ⟨(splitSlash (replaceBackslashes (trimL value))).filter (fun s => !s.isEmpty),
    rfl, ?_, ?_, ?_⟩
  · intro p hp
    have := (List.mem_filter.mp hp).2
    simpa using this
  · intro p hp
    exact splitSlash_no_slash _ p (List.mem_filter.mp hp).1
  · intro p hp c hc
    exact replaceBackslashes_no_bs _ c
      (splitSlash_chars _ p (List.mem_filter.mp hp).1 c hc)

theorem joinSlash_head? (p : List Char) (rest : List (List Char)) (hp : p ≠ []) :
    (joinSlash (p :: rest)).head? = p.head? := by
  cases rest with
  | nil => rfl
  | cons t ts => rw [joinSlash_cons_cons]; exact List.head?_append_of_ne_nil p hp

theorem joinSlash_chars (parts : List (List Char)) :
    ∀ c ∈ joinSlash parts, c = '/' ∨ ∃ p ∈ parts, c ∈ p := by
  induction parts with
  | nil => intro c hc; simp [joinSlash] at hc
  | cons s rest ih =>
    intro c hc
    cases rest with
    | nil =>
      simp only [joinSlash] at hc
      exact Or.inr ⟨s, by simp, hc⟩
    | cons t ts =>
      rw [joinSlash_cons_cons] at hc
      rcases List.mem_append.mp hc with h | h
      · exact Or.inr ⟨s, by simp, h⟩
      · rcases List.mem_cons.mp h with h | h
        · exact Or.inl h
        · rcases ih c h with h | ⟨p, hp, hcp⟩
          · exact Or.inl h
          · exact Or.inr ⟨p, List.mem_cons_of_mem s hp, hcp⟩

theorem noDoubleSlash_append (s t : List Char) (hs : ∀ c ∈ s, c ≠ '/')
    (ht : noDoubleSlash t = true) : noDoubleSlash (s ++ t) = true := by
  induction s with
  | nil => simpa
  | cons a s ih =>
    have ha : a ≠ '/' := hs a (by simp)
    have ih' := ih fun c hc => hs c (List.mem_cons_of_mem a hc)
    cases s with
    | nil =>
      cases t with
      | nil => simp [noDoubleSlash]
      | cons b t' =>
        simp only [List.nil_append] at ih' ⊢
        simp only [List.cons_append, List.nil_append]
        unfold noDoubleSlash
        simp [ih', ha]
    | cons a2 s' =>
      have key : noDoubleSlash (a2 :: (s' ++ t)) = true := by simpa using ih'
      show noDoubleSlash (a :: a2 :: (s' ++ t)) = true
      unfold noDoubleSlash
      simp [key, ha]

theorem noDoubleSlash_join (parts : List (List Char)) (h1 : ∀ p ∈ parts, p ≠ [])
    (h2 : ∀ p ∈ parts, ∀ c ∈ p, c ≠ '/') : noDoubleSlash (joinSlash parts) = true := by
  induction parts with
  | nil => simp [joinSlash, noDoubleSlash]
  | cons s rest ih =>
    cases rest with
    | nil =>
      show noDoubleSlash s = true
      have := noDoubleSlash_append s [] (h2 s (by simp)) (by simp [noDoubleSlash])
      simpa using this
    | cons t ts =>
      rw [joinSlash_cons_cons]
      apply noDoubleSlash_append s _ (h2 s (by simp))
      have iht : noDoubleSlash (joinSlash (t :: ts)) = true :=
        ih (fun p hp => h1 p (List.mem_cons_of_mem s hp))
          (fun p hp => h2 p (List.mem_cons_of_mem s hp))
      have hthead : (joinSlash (t :: ts)).head? = t.head? :=
        joinSlash_head? t ts (h1 t (by simp))
      cases hj : joinSlash (t :: ts) with
      | nil => simp [noDoubleSlash]
      | cons b j' =>
        have hb : b ≠ '/' := by
          have ht' : t ≠ [] := h1 t (by simp)
          cases t with
          | nil => exact absurd rfl ht'
          | cons tc tr =>
            rw [hj] at hthead
            simp at hthead
            rw [hthead]
            exact h2 (tc :: tr) (by simp) tc (by simp)
        rw [hj] at iht
        unfold noDoubleSlash
        simp [hb, iht]

theorem joinSlash_append_single (xs : List (List Char)) (y : List Char) (h : xs ≠ []) :
    joinSlash (xs ++ [y]) = joinSlash xs ++ '/' :: y := by
  induction xs with
  | nil => exact absurd rfl h
  | cons s rest ih =>
    cases rest with
    | nil => rfl
    | cons t ts =>
      have h2 := ih (by simp)
      simp only [List.cons_append] at h2
      show s ++ '/' :: joinSlash (t :: (ts ++ [y])) =
        (s ++ '/' :: joinSlash (t :: ts)) ++ '/' :: y
      rw [h2]
      simp

theorem joinSlash_reverse (parts : List (List Char)) :
    (joinSlash parts).reverse = joinSlash ((parts.map List.reverse).reverse) := by
  induction parts with
  | nil => rfl
  | cons s rest ih =>
    cases rest with
    | nil => rfl
    | cons t ts =>
      rw [joinSlash_cons_cons]
      have hrev : (s ++ '/' :: joinSlash (t :: ts)).reverse =
          (joinSlash (t :: ts)).reverse ++ '/' :: s.reverse := by
        simp
      rw [hrev, ih]
      have hne : ((t :: ts).map List.reverse).reverse ≠ [] := by simp
      rw [show ((s :: t :: ts).map List.reverse).reverse =
          ((t :: ts).map List.reverse).reverse ++ [s.reverse] by simp,
        joinSlash_append_single _ _ hne]

theorem joinSlash_head_ne_slash (parts : List (List Char))
    (h1 : ∀ p ∈ parts, p ≠ []) (h2 : ∀ p ∈ parts, ∀ c ∈ p, c ≠ '/') :
    ∀ c, (joinSlash parts).head? = some c → c ≠ '/' := by
  intro c hc
  cases parts with
  | nil => simp [joinSlash] at hc
  | cons p ps =>
    rw [joinSlash_head? p ps (h1 p (by simp))] at hc
    cases p with
    | nil => simp at hc
    | cons pc pr =>
      simp at hc
      rw [← hc]
      exact h2 (pc :: pr) (by simp) pc (by simp)

theorem joinSlash_getLast_ne_slash (parts : List (List Char))
    (h1 : ∀ p ∈ parts, p ≠ []) (h2 : ∀ p ∈ parts, ∀ c ∈ p, c ≠ '/') :
    ∀ c, (joinSlash parts).getLast? = some c → c ≠ '/' := by
  intro c hc
  rw [List.getLast?_eq_head?_reverse, joinSlash_reverse] at hc
  refine joinSlash_head_ne_slash ((parts.map List.reverse).reverse) ?_ ?_ c hc
  · intro p hp
    rw [List.mem_reverse] at hp
    obtain ⟨q, hq, hpq⟩ := List.mem_map.mp hp
    rw [← hpq]
    simpa using h1 q hq
  · intro p hp ch hch
    rw [List.mem_reverse] at hp
    obtain ⟨q, hq, hpq⟩ := List.mem_map.mp hp
    rw [← hpq] at hch
    exact h2 q hq ch (List.mem_reverse.mp hch)

/-! ## Claim C9 -/

/-- C9: for every input string, the normalized path produced by
`normalizeGroupPath` contains no backslash and no empty segments: it never
starts or ends with '/' and never contains two consecutive '/' characters. -/
theorem normalizeGroupPath_wellformed (s : List Char) :
    ((normalizeGroupPath s).normalized.contains '\\') = false ∧
    ((normalizeGroupPath s).normalized.head? == some '/') = false ∧
    ((normalizeGroupPath s).normalized.getLast? == some '/') = false ∧
    noDoubleSlash (normalizeGroupPath s).normalized = true := by
  obtain ⟨parts, hn, h1, h2, h3⟩ := normalizeGroupPath_segments s
  rw [hn]
  refine ⟨?_, ?_, ?_, noDoubleSlash_join parts h1 h2⟩
  · have hnb : ∀ c ∈ joinSlash parts, c ≠ '\\' := by
      intro c hc
      rcases joinSlash_chars parts c hc with h | ⟨p, hp, hcp⟩
      · subst h; decide
      · exact h3 p hp c hcp
    simp only [List.contains, List.elem_eq_mem, decide_eq_false_iff_not]
    intro hmem
    exact hnb '\\' hmem rfl
  · cases hh : (joinSlash parts).head? with
    | none => rfl
    | some c =>
      have := joinSlash_head_ne_slash parts h1 h2 c hh
      simp [this]
  · cases hh : (joinSlash parts).getLast? with
    | none => rfl
    | some c =>
      have := joinSlash_getLast_ne_slash parts h1 h2 c hh
      simp [this]

/-! ## Round-trip lemmas for `splitSlash`/`joinSlash` -/

theorem splitSlash_slashfree (s : List Char) (hs : ∀ c ∈ s, c ≠ '/') :
    splitSlash s = [s] := by
  induction s with
  | nil => rfl
  | cons c rest ih =>
    have hc : c ≠ '/' := hs c (by simp)
    have ih' := ih fun x hx => hs x (List.mem_cons_of_mem c hx)
    unfold splitSlash
    rw [if_neg hc, ih']

theorem splitSlash_cons (c : Char) (t : List Char) :
    splitSlash (c :: t) =
      if c = '/' then [] :: splitSlash t
      else
        match splitSlash t with
        | [] => [[c]]
        | s :: ss => (c :: s) :: ss := by
  simp only [splitSlash]

theorem splitSlash_append_slash (s t : List Char) (hne : s ≠ [])
    (hs : ∀ c ∈ s, c ≠ '/') :
    splitSlash (s ++ '/' :: t) = s :: splitSlash t := by
  induction s with
  | nil => exact absurd rfl hne
  | cons c s' ih =>
    have hc : c ≠ '/' := hs c (by simp)
    cases s' with
    | nil =>
      show splitSlash (c :: '/' :: t) = [c] :: splitSlash t
      rw [splitSlash_cons, if_neg hc, splitSlash_cons, if_pos rfl]
    | cons c2 s'' =>
      have ih' := ih (by simp) fun x hx => hs x (List.mem_cons_of_mem c hx)
      show splitSlash (c :: ((c2 :: s'') ++ '/' :: t)) = (c :: c2 :: s'') :: splitSlash t
      rw [splitSlash_cons, if_neg hc]
      rw [ih']

theorem splitSlash_joinSlash (parts : List (List Char)) (hne : parts ≠ [])
    (h1 : ∀ p ∈ parts, p ≠ []) (h2 : ∀ p ∈ parts, ∀ c ∈ p, c ≠ '/') :
    splitSlash (joinSlash parts) = parts := by
  induction parts with
  | nil => exact absurd rfl hne
  | cons s rest ih =>
    cases rest with
    | nil => exact splitSlash_slashfree s (h2 s (by simp))
    | cons t ts =>
      rw [joinSlash_cons_cons,
        splitSlash_append_slash s _ (h1 s (by simp)) (h2 s (by simp)),
        ih (by simp) (fun p hp => h1 p (List.mem_cons_of_mem s hp))
          (fun p hp => h2 p (List.mem_cons_of_mem s hp))]

theorem replaceBackslashes_id (l : List Char) (h : ∀ c ∈ l, c ≠ '\\') :
    replaceBackslashes l = l := by
  induction l with
  | nil => rfl
  | cons c rest ih =>
    have hrest := ih fun x hx => h x (List.mem_cons_of_mem c hx)
    unfold replaceBackslashes at hrest ⊢
    simp only [List.map_cons]
    rw [if_neg (h c (by simp)), hrest]

/-! ## Claim C6 -/

/-- C6 counterexample: `normalizeGroupPath` is not idempotent on every input.
On `"/ a"` it produces the normalized path `" a"`, and normalizing `" a"`
again yields `"a"`, a different path (the trim step eats whitespace that the
first pass left at a segment boundary). -/
theorem normalizeGroupPath_not_idem :
    (normalizeGroupPath ("/ a".toList)).normalized = " a".toList ∧
    (normalizeGroupPath ((normalizeGroupPath ("/ a".toList)).normalized)).normalized ≠
      (normalizeGroupPath ("/ a".toList)).normalized := by
  constructor
  · decide
  · decide

/-- C6 (amended): `normalizeGroupPath` is idempotent on every input whose
normalized path is unchanged by trimming (no leading or trailing whitespace
in the normalized string, the only way a second pass can differ). -/
theorem normalizeGroupPath_idem (s : List Char)
    (h : trimL (normalizeGroupPath s).normalized = (normalizeGroupPath s).normalized) :
    (normalizeGroupPath ((normalizeGroupPath s).normalized)).normalized =
      (normalizeGroupPath s).normalized := by
  obtain ⟨parts, hn, h1, h2, h3⟩ := normalizeGroupPath_segments s
  rw [hn] at h ⊢
  show joinSlash ((splitSlash (replaceBackslashes (trimL (joinSlash parts)))).filter
      fun s => !s.isEmpty) = joinSlash parts
  rw [h]
  rw [replaceBackslashes_id _ ?hbs]
  case hbs =>
    intro c hc
    rcases joinSlash_chars parts c hc with hc' | ⟨p, hp, hcp⟩
    · subst hc'; decide
    · exact h3 p hp c hcp
  cases hp : parts with
  | nil => rfl
  | cons p ps =>
    rw [← hp, splitSlash_joinSlash parts (by rw [hp]; simp) h1 h2,
      List.filter_eq_self.mpr fun p hp => by simpa using h1 p hp]

/-- C6 witness input: `"a//b\c "` normalizes to `"a/b/c"`, which is
trim-stable, so re-normalizing is the identity on it. -/
theorem normalizeGroupPath_idem_witness :
    trimL (normalizeGroupPath ("a//b\\c ".toList)).normalized =
      (normalizeGroupPath ("a//b\\c ".toList)).normalized ∧
    (normalizeGroupPath ((normalizeGroupPath ("a//b\\c ".toList)).normalized)).normalized =
      (normalizeGroupPath ("a//b\\c ".toList)).normalized :=
  ⟨by decide, normalizeGroupPath_idem ("a//b\\c ".toList) (by decide)⟩

/-! ## Claim C5 -/

/-- C5: any input whose normalized segment list contains a `.` or `..`
segment, in any position, is rejected by the safety validation. -/
theorem isSafeGroupParts_rejects_dot_segments (s : List Char)
    (h : ['.'] ∈ splitGroupPath s ∨ ['.', '.'] ∈ splitGroupPath s) :
    isSafeGroupParts (splitGroupPath s) = false := by
  unfold isSafeGroupParts
  refine List.all_eq_false.mpr ?_
  rcases h with h | h
  · exact ⟨['.'], h, by decide⟩
  · exact ⟨['.', '.'], h, by decide⟩

/-- C5 witness: `"a/../b"` contains a `..` segment and is rejected. -/
theorem isSafeGroupParts_rejects_dot_segments_witness :
    isSafeGroupParts (splitGroupPath ("a/../b".toList)) = false :=
  isSafeGroupParts_rejects_dot_segments ("a/../b".toList) (Or.inr (by decide))

/-! ## Claim C8 -/

/-- C8: on input that is empty or all whitespace, `parseJsonFromCommandOutput`
fails with the dedicated empty-output error (and so never returns a value),
before any bracket scan or JSON parse. -/
theorem parseJson_empty_output (out : List Char) (h : ∀ c ∈ out, isJsWs c = true) :
    parseJsonFromCommandOutput out = .error .emptyOutput := by
  have htr : trimL out = [] := by
    unfold trimL
    rw [List.dropWhile_eq_nil_iff.mpr h]
    rfl
  simp [parseJsonFromCommandOutput, htr]

/-- C8 witness: whitespace-only output yields the empty-output error. -/
theorem parseJson_empty_output_witness :
    parseJsonFromCommandOutput ("  \n ".toList) = .error .emptyOutput :=
  parseJson_empty_output ("  \n ".toList) (by decide)

/-! ## Claim C3 -/

/-- C3 counterexample: `buildFullGroupName` does duplicate the shared
segment: with base `"proj/groupA"` and input `"groupA/sub"` it returns
`"proj/groupA/groupA/sub"`, not the claimed `"proj/groupA/sub"` (the code
only skips concatenation when the input starts with the whole normalized
base string). -/
theorem buildFullGroupName_duplicates_shared_segment :
    buildFullGroupName ("proj/groupA".toList) ("groupA/sub".toList) =
      "proj/groupA/groupA/sub".toList ∧
    "proj/groupA/groupA/sub".toList ≠ "proj/groupA/sub".toList := by
  constructor
  · decide
  · decide

/-- C3 (amended): with base `"proj/groupA"`, input `"sub"` gives
`"proj/groupA/sub"`, and an input already starting with the base, such as
`"proj/groupA/sub"`, is used as-is; but input `"groupA/sub"` gives the
duplicated `"proj/groupA/groupA/sub"`. -/
theorem buildFullGroupName_eval :
    buildFullGroupName ("proj/groupA".toList) ("sub".toList) =
      "proj/groupA/sub".toList ∧
    buildFullGroupName ("proj/groupA".toList) ("proj/groupA/sub".toList) =
      "proj/groupA/sub".toList ∧
    buildFullGroupName ("proj/groupA".toList) ("groupA/sub".toList) =
      "proj/groupA/groupA/sub".toList := by
  refine ⟨by decide, by decide, by decide⟩

/-! ## Claim C4 -/

theorem joinSlash_inj_aux (x : List Char) (t1 : List Char) :
    ∀ (y t2 : List Char), (∀ c ∈ x, c ≠ '/') → (∀ c ∈ y, c ≠ '/') →
    x ++ '/' :: t1 = y ++ '/' :: t2 → x = y ∧ t1 = t2 := by
  induction x with
  | nil =>
    intro y t2 _ hy h
    cases y with
    | nil => simpa using h
    | cons d y' =>
      simp at h
      exact absurd h.1.symm (hy d (by simp))
  | cons a x' ih =>
    intro y t2 hx hy h
    cases y with
    | nil =>
      simp at h
      exact absurd h.1 (hx a (by simp))
    | cons d y' =>
      simp only [List.cons_append, List.cons.injEq] at h
      obtain ⟨had, hrest⟩ := h
      obtain ⟨h1, h2⟩ := ih y' t2 (fun c hc => hx c (List.mem_cons_of_mem a hc))
        (fun c hc => hy c (List.mem_cons_of_mem d hc)) hrest
      exact ⟨by rw [had, h1], h2⟩

theorem joinSlash_cons_ne_nil (p : List Char) (ps : List (List Char)) (hp : p ≠ []) :
    joinSlash (p :: ps) ≠ [] := by
  intro hcontra
  have hh := joinSlash_head? p ps hp
  rw [hcontra] at hh
  cases p with
  | nil => exact hp rfl
  | cons pc pr => simp at hh

theorem joinSlash_inj (xs : List (List Char)) :
    ∀ ys : List (List Char),
    (∀ p ∈ xs, p ≠ []) → (∀ p ∈ xs, ∀ c ∈ p, c ≠ '/') →
    (∀ p ∈ ys, p ≠ []) → (∀ p ∈ ys, ∀ c ∈ p, c ≠ '/') →
    joinSlash xs = joinSlash ys → xs = ys := by
  induction xs with
  | nil =>
    intro ys _ _ hy1 _ h
    cases ys with
    | nil => rfl
    | cons y ys' =>
      exact absurd h.symm (joinSlash_cons_ne_nil y ys' (hy1 y (by simp)))
  | cons x xs' ih =>
    intro ys hx1 hx2 hy1 hy2 h
    cases ys with
    | nil => exact absurd h (joinSlash_cons_ne_nil x xs' (hx1 x (by simp)))
    | cons y ys' =>
      cases hxs : xs' with
      | nil =>
        cases hys : ys' with
        | nil =>
          subst hxs hys
          exact congrArg (· :: []) h
        | cons y2 ys'' =>
          exfalso
          subst hxs hys
          rw [joinSlash_cons_cons] at h
          have hslash : '/' ∈ (y ++ '/' :: joinSlash (y2 :: ys'')) := by simp
          rw [← h] at hslash
          exact hx2 x (by simp) '/' hslash rfl
      | cons x2 xs'' =>
        cases hys : ys' with
        | nil =>
          exfalso
          subst hxs hys
          rw [joinSlash_cons_cons] at h
          have hslash : '/' ∈ (x ++ '/' :: joinSlash (x2 :: xs'')) := by simp
          rw [h] at hslash
          exact hy2 y (by simp) '/' hslash rfl
        | cons y2 ys'' =>
          subst hxs hys
          rw [joinSlash_cons_cons, joinSlash_cons_cons] at h
          obtain ⟨hxy, hjj⟩ := joinSlash_inj_aux x _ y _
            (hx2 x (by simp)) (hy2 y (by simp)) h
          have := ih (y2 :: ys'')
            (fun p hp => hx1 p (List.mem_cons_of_mem x hp))
            (fun p hp => hx2 p (List.mem_cons_of_mem x hp))
            (fun p hp => hy1 p (List.mem_cons_of_mem y hp))
            (fun p hp => hy2 p (List.mem_cons_of_mem y hp)) hjj
          rw [hxy, this]

theorem splitGroupPath_segments (v : List Char) :
    (∀ p ∈ splitGroupPath v, p ≠ []) ∧ (∀ p ∈ splitGroupPath v, ∀ c ∈ p, c ≠ '/') := by
  obtain ⟨parts, hn, h1, h2, _⟩ := normalizeGroupPath_segments v
  by_cases he : ((normalizeGroupPath v).normalized).isEmpty
  · have : splitGroupPath v = [] := by simp [splitGroupPath, he]
    simp [this]
  · have hsp : splitGroupPath v = splitSlash (normalizeGroupPath v).normalized := by
      simp [splitGroupPath, he]
    cases hp : parts with
    | nil =>
      exfalso
      rw [hn, hp] at he
      exact he (by rfl)
    | cons p ps =>
      rw [hsp, hn, splitSlash_joinSlash parts (by rw [hp]; simp) h1 h2]
      exact ⟨h1, h2⟩

/-- C4 counterexample: a full path that does not extend the base does not
resolve to the workspace root; its own segments are joined onto the root
instead (`/ws`, base `g`, full `x/y` gives `/ws/x/y`, not `/ws`). -/
theorem resolveLocalGroupDir_not_root_when_not_extending :
    resolveLocalGroupDir ("/ws".toList) ("g".toList) ("x/y".toList) =
      "/ws/x/y".toList ∧
    "/ws/x/y".toList ≠ "/ws".toList := by
  constructor
  · decide
  · decide

/-- C4 (amended): the base's segment prefix is stripped exactly when it is a
segment prefix of the full path (the claim's examples hold); but when the
full path does not extend the base, the full path's segments are joined onto
the workspace root unchanged — the root itself is returned only when the
relative segment list is empty. -/
theorem resolveLocalGroupDir_spec :
    resolveLocalGroupDir ("/ws".toList) ("g".toList) ("g/a/b".toList) =
      "/ws/a/b".toList ∧
    resolveLocalGroupDir ("/ws".toList) ("g".toList) ("g".toList) = "/ws".toList ∧
    (∀ ws base full, splitGroupPath base ≠ [] →
      (splitGroupPath full).take (splitGroupPath base).length ≠ splitGroupPath base →
      resolveLocalGroupDir ws base full =
        if (splitGroupPath full).isEmpty then ws
        else pathJoin ws (splitGroupPath full)) ∧
    (∀ ws base full,
      (splitGroupPath full).take (splitGroupPath base).length = splitGroupPath base →
      splitGroupPath base ≠ [] →
      resolveLocalGroupDir ws base full =
        if ((splitGroupPath full).drop (splitGroupPath base).length).isEmpty then ws
        else pathJoin ws ((splitGroupPath full).drop (splitGroupPath base).length)) := by
  refine ⟨by decide, by decide, ?_, ?_⟩
  · intro ws base full hb htake
    have hbeq : (joinSlash ((splitGroupPath full).take (splitGroupPath base).length) ==
        joinSlash (splitGroupPath base)) = false := by
      rw [beq_eq_false_iff_ne]
      intro heq
      obtain ⟨hf1, hf2⟩ := splitGroupPath_segments full
      obtain ⟨hb1, hb2⟩ := splitGroupPath_segments base
      exact htake (joinSlash_inj _ _
        (fun p hp => hf1 p ((List.take_sublist _ _).mem hp))
        (fun p hp => hf2 p ((List.take_sublist _ _).mem hp))
        hb1 hb2 heq)
    simp [resolveLocalGroupDir, hbeq]
  · intro ws base full htake hb
    have hbeq : (joinSlash ((splitGroupPath full).take (splitGroupPath base).length) ==
        joinSlash (splitGroupPath base)) = true := by
      rw [htake]
      exact beq_self_eq_true _
    have hlen : 0 < (splitGroupPath base).length := List.length_pos.mpr hb
    simp [resolveLocalGroupDir, hbeq, hlen]

/-- C4 witness for the non-extending case: base `"g"`, full `"h/k"`. -/
theorem resolveLocalGroupDir_spec_witness :
    resolveLocalGroupDir ("/ws".toList) ("g".toList) ("h/k".toList) =
      "/ws/h/k".toList :=
  (resolveLocalGroupDir_spec.2.2.1 ("/ws".toList) ("g".toList) ("h/k".toList)
    (by decide) (by decide)).trans (by decide)

/-! ## Claim C10 -/

theorem matchIdAt_sound (s r : List Char) (h : matchIdAt s = some r) :
    r ≠ [] ∧ ∀ c ∈ r, isIdClassChar c = true := by
  unfold matchIdAt at h
  split at h
  · exact absurd h (by simp)
  · split at h
    · split at h
      · split at h
        · split at h
          · split at h
            · rw [Option.some.injEq] at h
              subst h
              rename_i hdw hbool
              constructor
              · intro hnil
                rw [hnil] at hbool
                simp at hbool
              · intro c hc
                exact List.mem_takeWhile_imp hc
            · exact absurd h (by simp)
          · exact absurd h (by simp)
        · exact absurd h (by simp)
      · exact absurd h (by simp)
    · exact absurd h (by simp)

/-- C10: every non-`none` result of `extractWorkflowId` is a non-empty
string of hexadecimal digits (either case) and hyphens. -/
theorem extractWorkflowId_hex (s r : List Char) (h : extractWorkflowId s = some r) :
    r ≠ [] ∧ ∀ c ∈ r,
      ('0' ≤ c ∧ c ≤ '9') ∨ ('a' ≤ c ∧ c ≤ 'f') ∨ ('A' ≤ c ∧ c ≤ 'F') ∨ c = '-' := by
  have key : r ≠ [] ∧ ∀ c ∈ r, isIdClassChar c = true := by
    unfold extractWorkflowId at h
    induction s with
    | nil => simp [searchId] at h
    | cons a rest ih =>
      unfold searchId at h
      cases hm : matchIdAt (a :: rest) with
      | some r' =>
        rw [hm] at h
        simp at h
        subst h
        exact matchIdAt_sound _ _ hm
      | none =>
        rw [hm] at h
        exact ih h
  refine ⟨key.1, fun c hc => ?_⟩
  have hcl := key.2 c hc
  unfold isIdClassChar at hcl
  simp only [Bool.or_eq_true, Bool.and_eq_true, decide_eq_true_eq] at hcl
  tauto

/-- C10 witness: a concrete assignment yields its captured hex id. -/
theorem extractWorkflowId_hex_witness :
    "1234abcd-5678".toList ≠ [] ∧ ∀ c ∈ "1234abcd-5678".toList,
      ('0' ≤ c ∧ c ≤ '9') ∨ ('a' ≤ c ∧ c ≤ 'f') ∨ ('A' ≤ c ∧ c ≤ 'F') ∨ c = '-' :=
  extractWorkflowId_hex ("x = 1\nworkflow_id = \"1234abcd-5678\"\n".toList)
    ("1234abcd-5678".toList) rfl

/-! ## Claim C7 -/

theorem mkPushCmd_ne_mkBuildCmd (py f g : List Char) :
    mkPushCmd py g ≠ mkBuildCmd py f := by
  intro h
  unfold mkPushCmd mkBuildCmd at h
  have h2 := List.append_cancel_left h
  have h3 := congrArg (List.take 15) h2
  rw [List.take_append_of_le_length (by decide),
    List.take_append_of_le_length (by decide)] at h3
  exact absurd h3 (by decide)

/-- C7: in the build-and-push orchestrator, if the build subprocess fails
(no workspace open so the promise rejects before any spawn, or a non-zero
exit / spawn error reported by `exec`), no push command line is ever
spawned: the push step is reached only after the build step resolves. -/
theorem push_not_run_if_build_fails (env : ExecEnv) (filePath : List Char)
    (h : env.hasWorkspace = false ∨
      env.exitOk (mkBuildCmd env.pythonCmd (basenameL filePath)) = false) :
    ∀ jsonName, mkPushCmd env.pythonCmd jsonName ∉
      buildAndPushCommand env (some filePath) := by
  intro jsonName hmem
  simp only [buildAndPushCommand, executePy2RocketCommand] at hmem
  rcases h with h | h
  · rw [h] at hmem
    simp at hmem
  · rw [h] at hmem
    cases henv : env.hasWorkspace with
    | false =>
      rw [henv] at hmem
      simp at hmem
    | true =>
      rw [henv] at hmem
      simp at hmem
      exact mkPushCmd_ne_mkBuildCmd env.pythonCmd (basenameL filePath) jsonName hmem

/-- C7 witness: with every exit failing, only the build command is spawned
and the push command is absent from the trace. -/
theorem push_not_run_if_build_fails_witness :
    mkPushCmd ("python".toList) ("report.json".toList) ∉
      buildAndPushCommand ⟨true, "python".toList, fun _ => false⟩
        (some ("dir/report.py".toList)) :=
  push_not_run_if_build_fails ⟨true, "python".toList, fun _ => false⟩
    ("dir/report.py".toList) (Or.inr rfl) ("report.json".toList)

/-! ## Trim and index lemmas for the output interpreter -/

theorem dropWhile_append_cons (q : Char → Bool) (a : List Char) (c : Char)
    (b : List Char) (hc : q c = false) :
    (a ++ c :: b).dropWhile q = a.dropWhile q ++ c :: b := by
  induction a with
  | nil => simp [List.dropWhile_cons, hc]
  | cons x xs ih =>
    by_cases hx : q x = true
    · simp only [List.cons_append, List.dropWhile_cons, hx, if_true, ih]
    · rw [Bool.not_eq_true] at hx
      simp [List.dropWhile_cons, hx]

theorem exists_of_getLast? {l : List Char} {c : Char} (h : l.getLast? = some c) :
    ∃ l', l = l' ++ [c] := by
  induction l with
  | nil => simp at h
  | cons a rest ih =>
    cases rest with
    | nil =>
      simp at h
      exact ⟨[], by rw [h]; rfl⟩
    | cons b bs =>
      rw [List.getLast?_cons_cons] at h
      obtain ⟨l', hl⟩ := ih h
      exact ⟨a :: l', by rw [List.cons_append, ← hl]⟩

theorem trimL_sandwich (n1 pt pf n2 : List Char) (c1 c2 : Char)
    (hc1 : isJsWs c1 = false) (hc2 : isJsWs c2 = false)
    (hp : c1 :: pt = pf ++ [c2]) :
    trimL (n1 ++ (c1 :: pt) ++ n2) =
      n1.dropWhile isJsWs ++ (c1 :: pt) ++ (n2.reverse.dropWhile isJsWs).reverse := by
  unfold trimL
  have step1 : (n1 ++ (c1 :: pt) ++ n2).dropWhile isJsWs =
      n1.dropWhile isJsWs ++ (c1 :: pt) ++ n2 := by
    rw [List.append_assoc, List.cons_append,
      dropWhile_append_cons isJsWs n1 c1 (pt ++ n2) hc1, ← List.cons_append,
      ← List.append_assoc]
  rw [step1]
  have step2 : (n1.dropWhile isJsWs ++ (c1 :: pt) ++ n2).reverse =
      n2.reverse ++ c2 :: (pf.reverse ++ (n1.dropWhile isJsWs).reverse) := by
    rw [hp]
    simp
  rw [step2, dropWhile_append_cons isJsWs n2.reverse c2 _ hc2]
  rw [hp]
  simp

theorem firstIdx_append_cons (a : List Char) (c : Char) (b : List Char)
    (h : c ∉ a) : firstIdx (a ++ c :: b) c = some a.length := by
  induction a with
  | nil =>
    unfold firstIdx
    simp
  | cons x xs ih =>
    have hx : ¬(x = c) := by
      intro he
      exact h (by simp [he])
    show firstIdx (x :: (xs ++ c :: b)) c = some (x :: xs).length
    unfold firstIdx
    rw [if_neg hx, ih fun hm => h (List.mem_cons_of_mem x hm)]
    rfl

/-! ## Claim C1 -/

/-- C1 (amended): for every input text consisting of leading/trailing log
noise around a single embedded JSON object, where the noise contains no
`{`, `}`, `[` or `]` characters, `parseJsonFromCommandOutput` returns
exactly the embedded JSON value.  (The original claim's allowance for stray
`[`/`]` in the noise fails, see the counterexample.) -/
theorem parseJson_recovers (n1 p n2 : List Char) (v : Json)
    (hn1 : ∀ c ∈ n1, c ≠ '\x7b' ∧ c ≠ '\x7d' ∧ c ≠ '[' ∧ c ≠ ']')
    (hn2 : ∀ c ∈ n2, c ≠ '\x7b' ∧ c ≠ '\x7d' ∧ c ≠ '[' ∧ c ≠ ']')
    (hph : p.head? = some '\x7b') (hpl : p.getLast? = some '\x7d')
    (hv : jsonParse p = some v) :
    parseJsonFromCommandOutput (n1 ++ p ++ n2) = .ok v := by
  obtain ⟨pt, hp1⟩ : ∃ pt, p = '\x7b' :: pt := by
    cases p with
    | nil => simp at hph
    | cons a t =>
      simp at hph
      exact ⟨t, by rw [hph]⟩
  subst hp1
  obtain ⟨pf, hp2⟩ := exists_of_getLast? hpl
  have ht := trimL_sandwich n1 pt pf n2 '\x7b' '\x7d' (by decide) (by decide) hp2
  set d1 := n1.dropWhile isJsWs with hd1def
  set r2 := (n2.reverse.dropWhile isJsWs).reverse with hr2def
  have hd1mem : ∀ c ∈ d1, c ∈ n1 := fun c hc =>
    List.Sublist.mem hc (List.dropWhile_sublist isJsWs)
  have hr2mem : ∀ c ∈ r2, c ∈ n2 := fun c hc =>
    List.mem_reverse.mp
      (List.Sublist.mem (List.mem_reverse.mp hc) (List.dropWhile_sublist isJsWs))
  have hplen : 1 ≤ pt.length := by
    cases pt with
    | nil => exact absurd hpl (by decide)
    | cons _ _ => simp
  -- the bracket scan locates exactly the payload
  have hfi : firstIdx (d1 ++ ('\x7b' :: pt) ++ r2) '\x7b' = some d1.length := by
    rw [List.append_assoc, List.cons_append]
    exact firstIdx_append_cons d1 '\x7b' (pt ++ r2)
      fun hm => ((hn1 _ (hd1mem _ hm)).1 rfl)
  have hlen : (d1 ++ ('\x7b' :: pt) ++ r2).length =
      d1.length + (pt.length + 1) + r2.length := by
    simp only [List.length_append, List.length_cons]
  have hli : lastIdx (d1 ++ ('\x7b' :: pt) ++ r2) '\x7d' =
      some (d1.length + pt.length) := by
    unfold lastIdx
    have hrev : (d1 ++ ('\x7b' :: pt) ++ r2).reverse =
        r2.reverse ++ '\x7d' :: (pf.reverse ++ d1.reverse) := by
      rw [hp2]
      simp
    rw [hrev, firstIdx_append_cons r2.reverse '\x7d' _
      fun hm => ((hn2 _ (hr2mem _ (List.mem_reverse.mp hm))).2.1 rfl)]
    dsimp only [Option.map]
    congr 1
    have hr2len : r2.reverse.length = r2.length := List.length_reverse _
    rw [hlen]
    omega
  have hslice : sliceJs (d1 ++ ('\x7b' :: pt) ++ r2) d1.length
      (d1.length + pt.length + 1) = '\x7b' :: pt := by
    unfold sliceJs
    rw [List.append_assoc, List.drop_left,
      show d1.length + pt.length + 1 - d1.length = ('\x7b' :: pt).length by
        simp only [List.length_cons]; omega,
      List.take_left]
  have hempty : (d1 ++ ('\x7b' :: pt) ++ r2).isEmpty = false := by
    cases d1 <;> rfl
  by_cases hcase : d1 = [] ∧ r2 = []
  · obtain ⟨hd, hr⟩ := hcase
    have hg2 : (('\x7b' :: pt).getLast? == some '\x7d') = true := by
      rw [hpl]; rfl
    simp only [parseJsonFromCommandOutput, ht, hd, hr, List.nil_append, List.append_nil]
    simp [hg2, jsonParseExc, hv]
  · have hguard : (((d1 ++ ('\x7b' :: pt) ++ r2).head? == some '\x7b') &&
        ((d1 ++ ('\x7b' :: pt) ++ r2).getLast? == some '\x7d') ||
        ((d1 ++ ('\x7b' :: pt) ++ r2).head? == some '[') &&
        ((d1 ++ ('\x7b' :: pt) ++ r2).getLast? == some ']')) = false := by
      cases hd : d1 with
      | cons e es =>
        have he := hn1 e (hd1mem e (by rw [hd]; simp))
        simp [he.1, he.2.2.1]
      | nil =>
        have hr : r2 ≠ [] := fun hr => hcase ⟨hd, hr⟩
        obtain ⟨g, hg⟩ : ∃ g, r2.getLast? = some g := by
          cases hrr : r2 with
          | nil => exact absurd hrr hr
          | cons x xs => exact ⟨(x :: xs).getLast (by simp), List.getLast?_eq_getLast _ _⟩
        have hgmem : g ∈ r2 := by
          obtain ⟨l', hl'⟩ := exists_of_getLast? hg
          rw [hl']; simp
        have hgn := hn2 g (hr2mem g hgmem)
        have hlast : ('\x7b' :: (pt ++ r2)).getLast? = some g := by
          rw [show ('\x7b' :: (pt ++ r2)) = ('\x7b' :: pt) ++ r2 from by simp,
            List.getLast?_append, hg]
          rfl
        simp [hlast, hgn.2.1]
    have hguardne : ¬((((d1 ++ ('\x7b' :: pt) ++ r2).head? == some '\x7b') &&
        ((d1 ++ ('\x7b' :: pt) ++ r2).getLast? == some '\x7d') ||
        ((d1 ++ ('\x7b' :: pt) ++ r2).head? == some '[') &&
        ((d1 ++ ('\x7b' :: pt) ++ r2).getLast? == some ']')) = true) := by
      rw [hguard]
      simp
    have hemptyne : ¬((d1 ++ ('\x7b' :: pt) ++ r2).isEmpty = true) := by
      rw [hempty]
      simp
    simp only [parseJsonFromCommandOutput, ht]
    rw [if_neg hemptyne, if_neg hguardne, hfi, hli]
    show (if d1.length < d1.length + pt.length then
        jsonParseExc (sliceJs (d1 ++ ('\x7b' :: pt) ++ r2) d1.length
          (d1.length + pt.length + 1))
      else arrayAttempt (d1 ++ ('\x7b' :: pt) ++ r2)) = Except.ok v
    rw [if_pos (by omega : d1.length < d1.length + pt.length), hslice]
    simp [jsonParseExc, hv]

/-- C1 witness: log noise around `{"a":1}` still yields the parsed object. -/
theorem parseJson_recovers_witness :
    parseJsonFromCommandOutput
      ("log: ".toList ++ "\x7b\"a\":1\x7d".toList ++ " done".toList) =
      .ok (.obj [(['a'], .num ['1'])]) :=
  parseJson_recovers ("log: ".toList) ("\x7b\"a\":1\x7d".toList) (" done".toList)
    (.obj [(['a'], .num ['1'])]) (by decide) (by decide) rfl rfl rfl

/-- C1 counterexample: noise free of stray `{`/`}` but containing `[`/`]`
defeats the claim: `"[log] {"a":1} [done]"` trims to a text that starts with
`[` and ends with `]`, so the whole text goes to `JSON.parse`, which throws
a SyntaxError instead of returning the embedded object. -/
theorem parseJson_not_recovered_with_bracket_noise :
    (∀ c ∈ "[log] ".toList, c ≠ '\x7b' ∧ c ≠ '\x7d') ∧
    (∀ c ∈ " [done]".toList, c ≠ '\x7b' ∧ c ≠ '\x7d') ∧
    jsonParse ("\x7b\"a\":1\x7d".toList) = some (.obj [(['a'], .num ['1'])]) ∧
    parseJsonFromCommandOutput
      ("[log] ".toList ++ "\x7b\"a\":1\x7d".toList ++ " [done]".toList) =
      .error .syntaxErr := by
  refine ⟨by decide, by decide, rfl, rfl⟩

/-! ## Claim C2 -/

/-- C2 (amended): when a first-`{`-to-last-`}` candidate substring exists
but fails to parse, `parseJsonFromCommandOutput` throws that `JSON.parse`
SyntaxError without ever attempting the `[`...`]` extraction; the array
extraction runs only when no `{` occurs in the trimmed text at all (and
symmetrically, only the no-candidate paths reach it). -/
theorem objectAttempt_failure_propagates :
    (∀ (out : List Char) (i j : Nat), (trimL out).isEmpty = false →
      (((trimL out).head? == some '\x7b') && ((trimL out).getLast? == some '\x7d') ||
       ((trimL out).head? == some '[') && ((trimL out).getLast? == some ']')) = false →
      firstIdx (trimL out) '\x7b' = some i → lastIdx (trimL out) '\x7d' = some j →
      i < j → jsonParse (sliceJs (trimL out) i (j + 1)) = none →
      parseJsonFromCommandOutput out = .error .syntaxErr) ∧
    (∀ (out : List Char), (trimL out).isEmpty = false →
      (((trimL out).head? == some '\x7b') && ((trimL out).getLast? == some '\x7d') ||
       ((trimL out).head? == some '[') && ((trimL out).getLast? == some ']')) = false →
      firstIdx (trimL out) '\x7b' = none →
      parseJsonFromCommandOutput out = arrayAttempt (trimL out)) := by
  constructor
  · intro out i j h0 hg hfi hli hij hfail
    simp only [parseJsonFromCommandOutput]
    rw [if_neg (by rw [h0]; simp), if_neg (by rw [hg]; simp), hfi, hli]
    show (if i < j then jsonParseExc (sliceJs (trimL out) i (j + 1))
        else arrayAttempt (trimL out)) = Except.error PErr.syntaxErr
    rw [if_pos hij]
    simp [jsonParseExc, hfail]
  · intro out h0 hg hfi
    simp only [parseJsonFromCommandOutput]
    rw [if_neg (by rw [h0]; simp), if_neg (by rw [hg]; simp), hfi]

/-- C2 witness: on `"x{y}[1,2]"` the object substring `{y}` exists but is
invalid JSON, and the function surfaces the SyntaxError. -/
theorem objectAttempt_failure_propagates_witness :
    parseJsonFromCommandOutput ("x\x7by\x7d[1,2]".toList) = .error .syntaxErr :=
  objectAttempt_failure_propagates.1 ("x\x7by\x7d[1,2]".toList) 1 3 (by decide)
    (by decide) (by decide) (by decide) (by decide) rfl

/-- C2 counterexample: on `"x{y}[1,2]"` the object-substring attempt fails
while a valid `[1,2]` substring exists, yet the result is the SyntaxError,
not the parsed array the claim promises. -/
theorem parseJson_no_array_fallback_after_object_failure :
    parseJsonFromCommandOutput ("x\x7by\x7d[1,2]".toList) =
      Except.error PErr.syntaxErr ∧
    jsonParse ("[1,2]".toList) = some (.arr [.num ['1'], .num ['2']]) ∧
    ∀ v : Json, (Except.error PErr.syntaxErr : Except PErr Json) ≠ .ok v :=
  ⟨rfl, rfl, fun _ h => Except.noConfusion h⟩

end Py2Rocket
